/- Verification development for the vkarious incremental database hashing core
   (src/db_hash.py, src/db_hash_fast.py, src/hash_rust/tunordered.py).

   The SQL/PLpgSQL code installed by db_hash.py is shallowly embedded:
   byte strings are lists of naturals (each < 256), PostgreSQL bigint values
   are modelled as 64-bit patterns (Nat < 2^64) with an explicit signed view,
   the pgcrypto digest(·,'sha256') and md5(·) builtins are implemented
   concretely (SHA-256 / MD5 over byte lists), and the PostgreSQL internal
   hashtextextended fast hash is kept abstract as a parameter
   fh : String → Nat returning a 64-bit pattern. -/
import Mathlib

set_option maxRecDepth 1000000

namespace vkarious

/-! ### Bytes, hex encoding, UTF-8 -/

/-- Lowercase hexadecimal digit for a value < 16 (as produced by encode(·,'hex')). -/
def hexDigit (n : Nat) : Char :=
  if n < 10 then Char.ofNat (48 + n) else Char.ofNat (87 + n)

/-- PostgreSQL encode(bytes,'hex'): two lowercase hex digits per byte. -/
def hexEnc (bs : List Nat) : String :=
  String.mk (bs.foldr (fun b acc => hexDigit (b / 16) :: hexDigit (b % 16) :: acc) [])

/-- UTF-8 encoding of a single code point. -/
def encodeCp (n : Nat) : List Nat :=
  if n < 128 then [n]
  else if n < 2048 then [192 ||| (n >>> 6), 128 ||| (n % 64)]
  else if n < 65536 then
    [224 ||| (n >>> 12), 128 ||| ((n >>> 6) % 64), 128 ||| (n % 64)]
  else
    [240 ||| (n >>> 18), 128 ||| ((n >>> 12) % 64), 128 ||| ((n >>> 6) % 64), 128 ||| (n % 64)]

/-- UTF-8 bytes of a string (PostgreSQL text::bytea under UTF8 encoding). -/
def utf8Bytes (s : String) : List Nat :=
  s.data.foldr (fun c acc => encodeCp c.toNat ++ acc) []

/-- Big-endian byte rendering of n on k bytes. -/
def beBytes (k n : Nat) : List Nat :=
  match k with
  | 0 => []
  | k + 1 => beBytes k (n / 256) ++ [n % 256]

/-- Little-endian byte rendering of n on k bytes. -/
def leBytes (k n : Nat) : List Nat :=
  match k with
  | 0 => []
  | k + 1 => (n % 256) :: leBytes k (n / 256)

/-- Split a list into chunks of size sz (fuelled structural recursion;
    fuel = length is always enough since sz ≥ 1 consumes at least one element). -/
def chunksAux (fuel sz : Nat) (l : List Nat) : List (List Nat) :=
  match fuel with
  | 0 => []
  | fuel + 1 =>
    match l with
    | [] => []
    | _ :: _ => l.take sz :: chunksAux fuel sz (l.drop sz)

def chunks (sz : Nat) (l : List Nat) : List (List Nat) := chunksAux l.length sz l

/-! ### SHA-256 (pgcrypto digest(·,'sha256')) -/

def sha256K : List Nat :=
  [1116352408, 1899447441, 3049323471, 3921009573, 961987163,
   1508970993, 2453635748, 2870763221, 3624381080, 310598401,
   607225278, 1426881987, 1925078388, 2162078206, 2614888103,
   3248222580, 3835390401, 4022224774, 264347078, 604807628,
   770255983, 1249150122, 1555081692, 1996064986, 2554220882,
   2821834349, 2952996808, 3210313671, 3336571891, 3584528711,
   113926993, 338241895, 666307205, 773529912, 1294757372,
   1396182291, 1695183700, 1986661051, 2177026350, 2456956037,
   2730485921, 2820302411, 3259730800, 3345764771, 3516065817,
   3600352804, 4094571909, 275423344, 430227734, 506948616,
   659060556, 883997877, 958139571, 1322822218, 1537002063,
   1747873779, 1955562222, 2024104815, 2227730452, 2361852424,
   2428436474, 2756734187, 3204031479, 3329325298]

def rotr32 (n x : Nat) : Nat := ((x >>> n) ||| (x <<< (32 - n))) % 4294967296

/-- Message padding: 0x80, zeros to 56 mod 64, then 64-bit big-endian bit length. -/
def shaPad (msg : List Nat) : List Nat :=
  msg ++ [128] ++ List.replicate ((119 - msg.length % 64) % 64) 0 ++ beBytes 8 (8 * msg.length)

/-- Big-endian 32-bit words of a 64-byte block. -/
def beWords (block : List Nat) : List Nat :=
  (chunks 4 block).map (fun w => w.foldl (fun a b => a * 256 + b) 0)

/-- SHA-256 message schedule: extend 16 words to 64. -/
def shaSchedule (ws : Array Nat) (i : Nat) : Array Nat :=
  let g (j : Nat) : Nat := ws.getD j 0
  let s0 := (rotr32 7 (g (i - 15))) ^^^ (rotr32 18 (g (i - 15))) ^^^ ((g (i - 15)) >>> 3)
  let s1 := (rotr32 17 (g (i - 2))) ^^^ (rotr32 19 (g (i - 2))) ^^^ ((g (i - 2)) >>> 10)
  ws.push ((g (i - 16) + s0 + g (i - 7) + s1) % 4294967296)

structure Sha8 where
  a : Nat
  b : Nat
  c : Nat
  d : Nat
  e : Nat
  f : Nat
  g : Nat
  hh : Nat

def shaRound (w k : Nat) (s : Sha8) : Sha8 :=
  let S1 := (rotr32 6 s.e) ^^^ (rotr32 11 s.e) ^^^ (rotr32 25 s.e)
  let ch := (s.e &&& s.f) ^^^ ((4294967295 - s.e) &&& s.g)
  let t1 := (s.hh + S1 + ch + k + w) % 4294967296
  let S0 := (rotr32 2 s.a) ^^^ (rotr32 13 s.a) ^^^ (rotr32 22 s.a)
  let mj := (s.a &&& s.b) ^^^ (s.a &&& s.c) ^^^ (s.b &&& s.c)
  let t2 := (S0 + mj) % 4294967296
  ⟨(t1 + t2) % 4294967296, s.a, s.b, s.c, (s.d + t1) % 4294967296, s.e, s.f, s.g⟩

def shaBlock (h : Sha8) (block : List Nat) : Sha8 :=
  let w16 := (beWords block).toArray
  let ws := (List.range 64).foldl (fun a i => if i < 16 then a else shaSchedule a i) w16
  let r := (List.range 64).foldl (fun s i => shaRound (ws.getD i 0) (sha256K.getD i 0) s) h
  ⟨(h.a + r.a) % 4294967296, (h.b + r.b) % 4294967296, (h.c + r.c) % 4294967296,
   (h.d + r.d) % 4294967296, (h.e + r.e) % 4294967296, (h.f + r.f) % 4294967296,
   (h.g + r.g) % 4294967296, (h.hh + r.hh) % 4294967296⟩

def sha256Init : Sha8 :=
  ⟨1779033703, 3144134277, 1013904242, 2773480762,
   1359893119, 2600822924, 528734635, 1541459225⟩

/-- SHA-256 digest (32 bytes) of a byte list; pgcrypto digest(msg,'sha256'). -/
def sha256 (msg : List Nat) : List Nat :=
  let f := (chunks 64 (shaPad msg)).foldl shaBlock sha256Init
  beBytes 4 f.a ++ beBytes 4 f.b ++ beBytes 4 f.c ++ beBytes 4 f.d ++
  beBytes 4 f.e ++ beBytes 4 f.f ++ beBytes 4 f.g ++ beBytes 4 f.hh

/-! ### MD5 (PostgreSQL md5(·), stored raw via decode(md5(x),'hex')) -/

def md5K : List Nat :=
  [3614090360, 3905402710, 606105819, 3250441966, 4118548399,
   1200080426, 2821735955, 4249261313, 1770035416, 2336552879,
   4294925233, 2304563134, 1804603682, 4254626195, 2792965006,
   1236535329, 4129170786, 3225465664, 643717713, 3921069994,
   3593408605, 38016083, 3634488961, 3889429448, 568446438,
   3275163606, 4107603335, 1163531501, 2850285829, 4243563512,
   1735328473, 2368359562, 4294588738, 2272392833, 1839030562,
   4259657740, 2763975236, 1272893353, 4139469664, 3200236656,
   681279174, 3936430074, 3572445317, 76029189, 3654602809,
   3873151461, 530742520, 3299628645, 4096336452, 1126891415,
   2878612391, 4237533241, 1700485571, 2399980690, 4293915773,
   2240044497, 1873313359, 4264355552, 2734768916, 1309151649,
   4149444226, 3174756917, 718787259, 3951481745]

def md5S : List Nat :=
  [7, 12, 17, 22, 7, 12, 17, 22, 7, 12, 17, 22, 7, 12, 17, 22,
   5, 9, 14, 20, 5, 9, 14, 20, 5, 9, 14, 20, 5, 9, 14, 20,
   4, 11, 16, 23, 4, 11, 16, 23, 4, 11, 16, 23, 4, 11, 16, 23,
   6, 10, 15, 21, 6, 10, 15, 21, 6, 10, 15, 21, 6, 10, 15, 21]

def rotl32 (n x : Nat) : Nat := ((x <<< n) ||| (x >>> (32 - n))) % 4294967296

/-- MD5 padding: 0x80, zeros to 56 mod 64, then 64-bit little-endian bit length. -/
def md5Pad (msg : List Nat) : List Nat :=
  msg ++ [128] ++ List.replicate ((119 - msg.length % 64) % 64) 0 ++ leBytes 8 (8 * msg.length)

/-- Little-endian 32-bit words of a 64-byte block. -/
def leWords (block : List Nat) : List Nat :=
  (chunks 4 block).map (fun w => w.foldr (fun b a => a * 256 + b) 0)

structure Md4T where
  a : Nat
  b : Nat
  c : Nat
  d : Nat

def md5F (i b c d : Nat) : Nat :=
  if i < 16 then (b &&& c) ||| ((4294967295 - b) &&& d)
  else if i < 32 then (d &&& b) ||| ((4294967295 - d) &&& c)
  else if i < 48 then b ^^^ c ^^^ d
  else c ^^^ (b ||| (4294967295 - d))

def md5G (i : Nat) : Nat :=
  if i < 16 then i
  else if i < 32 then (5 * i + 1) % 16
  else if i < 48 then (3 * i + 5) % 16
  else (7 * i) % 16

def md5Round (m : List Nat) (s : Md4T) (i : Nat) : Md4T :=
  let f := (md5F i s.b s.c s.d + s.a + md5K.getD i 0 + m.getD (md5G i) 0) % 4294967296
  ⟨s.d, (s.b + rotl32 (md5S.getD i 0) f) % 4294967296, s.b, s.c⟩

def md5Block (h : Md4T) (block : List Nat) : Md4T :=
  let m := leWords block
  let r := (List.range 64).foldl (md5Round m) h
  ⟨(h.a + r.a) % 4294967296, (h.b + r.b) % 4294967296,
   (h.c + r.c) % 4294967296, (h.d + r.d) % 4294967296⟩

def md5Init : Md4T := ⟨1732584193, 4023233417, 2562383102, 271733878⟩

/-- MD5 digest (16 bytes) of a byte list; the chunk_hash column stores
    decode(md5(text),'hex'), i.e. exactly these 16 bytes. -/
def md5 (msg : List Nat) : List Nat :=
  let f := (chunks 64 (md5Pad msg)).foldl md5Block md5Init
  leBytes 4 f.a ++ leBytes 4 f.b ++ leBytes 4 f.c ++ leBytes 4 f.d

/-! ### 64-bit bigint patterns, bxor / xor_agg

PostgreSQL bigint values are modelled by their 64-bit two's-complement bit
pattern (a Nat < 2^64) together with a signed view toSigned.  The internal
fast hash hashtextextended is kept abstract as fh : String → Nat returning
such a pattern. -/

/-- Signed (bigint) value of a 64-bit pattern. -/
def toSigned (p : Nat) : Int :=
  if p < 9223372036854775808 then (p : Int) else (p : Int) - 18446744073709551616

/-- 64-bit pattern of a bigint value (two's complement). -/
def toPat (i : Int) : Nat := (i % 18446744073709551616).toNat

/-- vkarious.bxor(a,b) = a # b on bigint: bitwise xor of 64-bit patterns. -/
def bxor (a b : Int) : Int := toSigned (Nat.xor (toPat a) (toPat b))

/-- vkarious.xor_agg: aggregate with sfunc bxor and initcond 0. -/
def xor_agg (l : List Int) : Int := l.foldl bxor 0

/-- PostgreSQL abs(·) of the bigint whose pattern is p, as a Nat
    (abs errors only at p = 2^63, the value -2^63; that input never has a
    defined result in the source either). -/
def absPat (p : Nat) : Nat :=
  if p < 9223372036854775808 then p else 18446744073709551616 - p

/-- Decimal text rendering of the bigint whose 64-bit pattern is p
    (PostgreSQL xor64::text). -/
def decText (p : Nat) : String := toString (toSigned p)

/-! ### multiset_hash (src/hash_rust/tunordered.py)

The 128-bit per-row hash int.from_bytes(blake3(repr(row)).digest(16)) is kept
abstract as h : α → Nat; the accumulator adds row hashes modulo 2^128. -/

/-- Accumulator of multiset_hash: acc = (acc + h(row)) % 2^128, starting at 0. -/
def msAcc {α : Type} (h : α → Nat) (rows : List α) : Nat :=
  rows.foldl (fun acc r => (acc + h r) % 340282366920938463463374607431768211456) 0

/-- Lowercase hex, zero-padded to k digits (most significant first). -/
def hexPad (k n : Nat) : List Char :=
  match k with
  | 0 => []
  | k + 1 => hexPad k (n / 16) ++ [hexDigit (n % 16)]

/-- multiset_hash(rows): 032x hex rendering of the 2^128 modular sum of
    the 128-bit row hashes. -/
def multiset_hash {α : Type} (h : α → Nat) (rows : List α) : String :=
  String.mk (hexPad 32 (msAcc h rows))

/-! ### Sorting helpers (ORDER BY in SQL aggregates) -/

/-- Insertion into a list sorted by a Boolean le. -/
def insLe {α : Type} (le : α → α → Bool) (x : α) : List α → List α
  | [] => [x]
  | y :: l => if le x y then x :: y :: l else y :: insLe le x l

/-- Insertion sort by a Boolean le (models ORDER BY). -/
def sortLe {α : Type} (le : α → α → Bool) : List α → List α
  | [] => []
  | x :: l => insLe le x (sortLe le l)

/-! ### Row serialization (bootstrap join_cols, compute_chunk_id)

A row of a watched user table is modelled as its list of column values in
declared (attnum) order, each column being the canonical text form of the
value or none for NULL.  pki lists the 0-based positions of the primary-key
columns in PK-constraint order. -/

/-- One column rendered: coalesce(col::text, the NULL sentinel). -/
def colText (o : Option String) : String := o.getD "∅"

/-- join_cols in bootstrap: canonical texts joined by the unit separator,
    separator only between columns (no trailing separator). -/
def rowBytesOf (r : List (Option String)) : String :=
  String.intercalate "␟" (r.map colText)

/-- join_cols applied to the PK projection of a row (per-table trigger and
    bootstrap aggregation pk_concat). -/
def pkBytesOf (pki : List Nat) (r : List (Option String)) : String :=
  String.intercalate "␟" (pki.map (fun i => colText (r.getD i none)))

/-- vkarious.compute_chunk_id (shared-path, db_hash.py lines 104-114):
    k is built with a trailing separator after every PK column, then
    abs(hashtextextended(k,0)) / greatest(chunk_rows,1); returns 0 when the
    pk_cols array is NULL. -/
def compute_chunk_id (fh : String → Nat) (pkCols : Option (List (Option String)))
    (chunk_rows : Int) : Int :=
  match pkCols with
  | none => 0
  | some ts =>
    let k := String.join (ts.map (fun o => colText o ++ "␟"))
    ((absPat (fh k) : Int)) / max chunk_rows 1

/-- Chunk id as computed by the generated per-table trigger and by the
    bootstrap aggregation: abs(hashtextextended(pk_concat,0)) / greatest(w,1)
    where pk_concat uses join_cols (separator only between columns). -/
def cidOf (fh : String → Nat) (w : Int) (pki : List Nat)
    (r : List (Option String)) : Int :=
  ((absPat (fh (pkBytesOf pki r)) : Int)) / max w 1

/-! ### Per-table trigger path: chunk_state / chunk_hashes under INSERT

State of vkarious.chunk_state and vkarious.chunk_hashes for one watched
table under the generated tg_chunk_state trigger.  xorMap/cntMap give the
xor64 pattern and row_count of each chunk (0/0 when the row is absent),
present is the set of chunk ids having a row, and chMap is the chunk_hashes
content (digest bytes, row_count). -/

@[ext]
structure TS where
  xorMap : Int → Nat
  cntMap : Int → Nat
  chMap : Int → Option (List Nat × Nat)
  present : Finset Int

/-- Empty chunk_state / chunk_hashes. -/
def TS0 : TS := ⟨fun _ => 0, fun _ => 0, fun _ => none, ∅⟩

/-- INSERT branch of the generated per-table trigger
    (db_hash.py lines 278-290): xor the row's fasthash64 into the chunk's
    xor64, bump row_count, and upsert chunk_hashes with
    decode(md5(xor64::text),'hex') and dirty=false. -/
def tg_chunk_state_insert (fh : String → Nat) (w : Int) (pki : List Nat)
    (s : TS) (r : List (Option String)) : TS :=
  let x := fh (rowBytesOf r)
  let c := cidOf fh w pki r
  let nx := Nat.xor (s.xorMap c) x
  let nc := s.cntMap c + 1
  { xorMap := fun c' => if c' = c then nx else s.xorMap c'
    cntMap := fun c' => if c' = c then nc else s.cntMap c'
    chMap := fun c' => if c' = c then some (md5 (utf8Bytes (decText nx)), nc) else s.chMap c'
    present := insert c s.present }

/-- Effect of inserting a sequence of rows into an initially empty table. -/
def insertAll (fh : String → Nat) (w : Int) (pki : List Nat)
    (rows : List (List (Option String))) : TS :=
  rows.foldl (tg_chunk_state_insert fh w pki) TS0

/-- vkarious.table_root_hash read off the trigger-path state: sha256 of the
    concatenation of the hex-encoded chunk digests in chunk_id order. -/
def tableRootTS (s : TS) : List Nat :=
  sha256 (utf8Bytes (String.join (((s.present.sort (· ≤ ·)).map
    (fun c => hexEnc ((s.chMap c).getD ([], 0)).1)))))

/-! ### Bootstrap aggregation (db_hash.py lines 350-377) -/

/-- xor64 of chunk c after the bootstrap aggregation
    vkarious.xor_agg(hashtextextended(row_concat,0)) grouped by chunk_id. -/
def bootXor (fh : String → Nat) (w : Int) (pki : List Nat)
    (rows : List (List (Option String))) (c : Int) : Nat :=
  ((rows.filter (fun r => cidOf fh w pki r == c)).map
    (fun r => fh (rowBytesOf r))).foldl Nat.xor 0

/-- row_count of chunk c after the bootstrap aggregation (count(*) per group). -/
def bootCnt (fh : String → Nat) (w : Int) (pki : List Nat)
    (rows : List (List (Option String))) (c : Int) : Nat :=
  (rows.filter (fun r => cidOf fh w pki r == c)).length

/-- chunk_hashes row for chunk c after the bootstrap fill
    (decode(md5(s.xor64::text),'hex'), row_count, dirty=false);
    none when no row of the table maps to c. -/
def bootChunkHash (fh : String → Nat) (w : Int) (pki : List Nat)
    (rows : List (List (Option String))) (c : Int) : Option (List Nat × Nat) :=
  if (rows.map (cidOf fh w pki)).contains c then
    some (md5 (utf8Bytes (decText (bootXor fh w pki rows c))), bootCnt fh w pki rows c)
  else none

/-! ### Shared-path state: vkarious.row_hashes / vkarious.chunk_hashes -/

/-- One row of vkarious.row_hashes. -/
structure RowE where
  sch : String
  tbl : String
  pkh : List Nat
  cid : Int
  rowh : List Nat
deriving DecidableEq

/-- One row of vkarious.chunk_hashes. -/
structure ChunkE where
  sch : String
  tbl : String
  cid : Int
  hash : List Nat
  rc : Nat
  dirty : Bool
deriving DecidableEq

/-- Derived state: the two unlogged tables of the shared path. -/
@[ext]
structure DBState where
  rows : List RowE
  chunks : List ChunkE
deriving DecidableEq

/-- Key match on chunk_hashes (schema_name, table_name, chunk_id). -/
def ckeyMatch (e : ChunkE) (s t : String) (c : Int) : Bool :=
  e.sch == s && e.tbl == t && e.cid == c

/-- Key match on row_hashes (schema_name, table_name, pk_hash). -/
def rkeyMatch (e : RowE) (s t : String) (p : List Nat) : Bool :=
  e.sch == s && e.tbl == t && e.pkh == p

/-- Lexicographic byte order on bytea values (ORDER BY pk_hash). -/
def leBytea : List Nat → List Nat → Bool
  | [], _ => true
  | _ :: _, [] => false
  | a :: as, b :: bs => if a < b then true else if b < a then false else leBytea as bs

/-- pk_hash computed by the shared trigger tg_row_hash (db_hash.py line 144):
    digest(string_agg(coalesce(to_jsonb(NEW)->>k,the NULL sentinel),
    '' order by ord),'sha256') — the PK column texts are concatenated in
    declared order with the EMPTY string as separator. -/
def pkHashOf (ts : List (Option String)) : List Nat :=
  sha256 (utf8Bytes (String.join (ts.map colText)))

/-- INSERT ... ON CONFLICT DO UPDATE on row_hashes. -/
def rhUpsert (l : List RowE) (e : RowE) : List RowE :=
  if l.any (fun x => rkeyMatch x e.sch e.tbl e.pkh) then
    l.map (fun x => if rkeyMatch x e.sch e.tbl e.pkh then
      { x with cid := e.cid, rowh := e.rowh } else x)
  else l ++ [e]

/-- INSERT branch of the shared trigger vkarious.tg_row_hash
    (db_hash.py lines 143-160): upsert row_hashes keyed by pk_hash, then
    UPDATE chunk_hashes SET dirty=true at the new chunk id — an UPDATE only,
    which creates no chunk_hashes row. -/
def tg_row_hash_insert (st : DBState) (sch tbl : String)
    (ts : List (Option String)) (cid : Int) (rowh : List Nat) : DBState :=
  { rows := rhUpsert st.rows ⟨sch, tbl, pkHashOf ts, cid, rowh⟩
    chunks := st.chunks.map (fun e =>
      if ckeyMatch e sch tbl cid then { e with dirty := true } else e) }

/-- vkarious.fold_chunk_hash: digest of the concatenated hex row_hashes of
    the chunk's row_hashes rows ordered by pk_hash, with digest('','sha256')
    for an empty chunk (the coalesce branch), plus the row count. -/
def fold_chunk_hash (rows : List RowE) (sch tbl : String) (cid : Int) :
    List Nat × Nat :=
  let rs := sortLe (fun a b => leBytea a.pkh b.pkh)
    (rows.filter (fun e => e.sch == sch && e.tbl == tbl && e.cid == cid))
  (if rs = [] then sha256 []
   else sha256 (utf8Bytes (String.join (rs.map (fun e => hexEnc e.rowh)))), rs.length)

/-- vkarious.upsert_chunk_hash: recompute the fold and upsert chunk_hashes
    with dirty=false. -/
def upsert_chunk_hash (st : DBState) (sch tbl : String) (cid : Int) : DBState :=
  let f := fold_chunk_hash st.rows sch tbl cid
  { st with chunks :=
      if st.chunks.any (fun e => ckeyMatch e sch tbl cid) then
        st.chunks.map (fun e => if ckeyMatch e sch tbl cid then
          { e with hash := f.1, rc := f.2, dirty := false } else e)
      else st.chunks ++ [⟨sch, tbl, cid, f.1, f.2, false⟩] }

/-- vkarious.rehash_dirty: walk the chunk_hashes rows that are dirty at entry
    and upsert each one. -/
def rehash_dirty (st : DBState) : DBState :=
  (st.chunks.filter (fun e => e.dirty)).foldl
    (fun s e => upsert_chunk_hash s e.sch e.tbl e.cid) st

/-- ORDER BY chunk_id for chunk_hashes rows. -/
def leCid (a b : ChunkE) : Bool := a.cid ≤ b.cid

/-- vkarious.table_root_hash(_schema,_table): sha256 of the concatenation of
    the hex-encoded chunk_hash values ordered by chunk_id; the coalesce gives
    digest('','sha256') when the table has no chunk_hashes rows. -/
def table_root_hash (chunks : List ChunkE) (sch tbl : String) : List Nat :=
  let rs := sortLe leCid (chunks.filter (fun e => e.sch == sch && e.tbl == tbl))
  if rs = [] then sha256 []
  else sha256 (utf8Bytes (String.join (rs.map (fun e => hexEnc e.hash))))

/-- Ascending order on (schema_name, table_name). -/
def leKey (a b : String × String) : Bool :=
  decide (a.1 < b.1 ∨ (a.1 = b.1 ∧ a.2 ≤ b.2))

/-- vkarious.database_root_hash(): table roots of the (schema,table) pairs
    present in chunk_hashes, hex-encoded, concatenated in (schema,table)
    order and hashed; the coalesce gives digest('','sha256') when
    chunk_hashes is empty. -/
def database_root_hash (chunks : List ChunkE) : List Nat :=
  let ks := sortLe leKey ((chunks.map (fun e => (e.sch, e.tbl))).dedup)
  if ks = [] then sha256 []
  else sha256 (utf8Bytes (String.join
    (ks.map (fun k => hexEnc (table_root_hash chunks k.1 k.2)))))

/-! ### Bootstrap per-table step sequence (db_hash.py lines 242-392) -/

inductive TrigFn where
  | perTable : TrigFn
  | shared : TrigFn
deriving DecidableEq

inductive BStep where
  | insertHashConfig : BStep
  | createFn : BStep
  | dropTrig : BStep
  | createTrig : TrigFn → BStep
  | setLocal : BStep
  | aggChunkState : BStep
  | fillChunkHashes : BStep
  | fillFromRowHashes : BStep
deriving DecidableEq

/-- The statements bootstrap executes for one watched table, in program
    order (db_hash.py lines 244-391), all inside one transaction committed
    at line 392. -/
def bootstrap_steps : List BStep :=
  [.insertHashConfig, .createFn, .dropTrig, .createTrig .perTable, .setLocal,
   .aggChunkState, .fillChunkHashes, .fillFromRowHashes, .dropTrig,
   .createTrig .shared]

/-- Does a step install a trigger on the user table? -/
def isTrigInstall : BStep → Bool
  | .createTrig _ => true
  | _ => false

/-- Is a step the initial chunk aggregation over the user table? -/
def isAgg : BStep → Bool
  | .aggChunkState => true
  | _ => false

/-! ### General lemmas: permutation-invariant folds -/

theorem foldl_perm_of_comm {α β : Type} {f : β → α → β}
    (hf : ∀ b x y, f (f b x) y = f (f b y) x) {l₁ l₂ : List α}
    (hp : l₁.Perm l₂) : ∀ b, l₁.foldl f b = l₂.foldl f b := by
  induction hp with
  | nil => intro b; rfl
  | cons x _ ih => intro b; simpa using ih (f b x)
  | swap x y l => intro b; simp [List.foldl, hf]
  | trans _ _ ih₁ ih₂ => intro b; exact (ih₁ b).trans (ih₂ b)

theorem toFinset_perm {α : Type} [DecidableEq α] {l₁ l₂ : List α}
    (hp : l₁.Perm l₂) : l₁.toFinset = l₂.toFinset := by
  apply Finset.ext
  intro a
  simp [List.mem_toFinset, hp.mem_iff]

/-! ### bxor: two's-complement xor facts -/

theorem natxor_assoc (a b c : Nat) :
    Nat.xor (Nat.xor a b) c = Nat.xor a (Nat.xor b c) := Nat.xor_assoc a b c

theorem natxor_comm (a b : Nat) : Nat.xor a b = Nat.xor b a := Nat.xor_comm a b

theorem toPat_toSigned {p : Nat} (hp : p < 18446744073709551616) :
    toPat (toSigned p) = p := by
  unfold toPat toSigned
  split <;> omega

theorem xor_lt_64 {a b : Nat} (ha : a < 18446744073709551616)
    (hb : b < 18446744073709551616) :
    Nat.xor a b < 18446744073709551616 := by
  have h : (a : Nat) ^^^ b < 2 ^ 64 :=
    Nat.xor_lt_two_pow (n := 64) (by omega) (by omega)
  have h2 : Nat.xor a b = a ^^^ b := rfl
  omega

theorem toPat_lt (i : Int) : toPat i < 18446744073709551616 := by
  unfold toPat
  omega

theorem toPat_bxor (a b : Int) :
    toPat (bxor a b) = Nat.xor (toPat a) (toPat b) := by
  unfold bxor
  exact toPat_toSigned (xor_lt_64 (toPat_lt a) (toPat_lt b))

theorem bxor_left_comm (z x y : Int) :
    bxor (bxor z x) y = bxor (bxor z y) x := by
  show toSigned (Nat.xor (toPat (bxor z x)) (toPat y)) =
    toSigned (Nat.xor (toPat (bxor z y)) (toPat x))
  rw [toPat_bxor, toPat_bxor, natxor_assoc, natxor_assoc,
    natxor_comm (toPat x) (toPat y)]

/-- xor_agg is invariant under permutation of its input sequence. -/
theorem xor_agg_perm {l₁ l₂ : List Int} (hp : l₁.Perm l₂) :
    xor_agg l₁ = xor_agg l₂ :=
  foldl_perm_of_comm bxor_left_comm hp 0

/-- Nat.xor folds (the pattern view of xor_agg) are permutation invariant. -/
theorem xor_fold_perm {l₁ l₂ : List Nat} (hp : l₁.Perm l₂) (b : Nat) :
    l₁.foldl Nat.xor b = l₂.foldl Nat.xor b := by
  refine foldl_perm_of_comm (fun b x y => ?_) hp b
  rw [natxor_assoc, natxor_assoc, natxor_comm x y]

/-! ### multiset_hash is a multiset invariant -/

theorem msAcc_perm {α : Type} (h : α → Nat) {l₁ l₂ : List α}
    (hp : l₁.Perm l₂) : msAcc h l₁ = msAcc h l₂ := by
  refine foldl_perm_of_comm (fun b x y => ?_) hp 0
  rw [Nat.mod_add_mod, Nat.mod_add_mod, Nat.add_right_comm]

theorem multiset_hash_perm {α : Type} (h : α → Nat) {l₁ l₂ : List α}
    (hp : l₁.Perm l₂) : multiset_hash h l₁ = multiset_hash h l₂ := by
  unfold multiset_hash
  rw [msAcc_perm h hp]

/-! ### Closed forms for the trigger-path insert fold -/

theorem foldl_ins_xorMap (fh : String → Nat) (w : Int) (pki : List Nat)
    (rows : List (List (Option String))) :
    ∀ (s : TS) (c : Int),
    (rows.foldl (tg_chunk_state_insert fh w pki) s).xorMap c =
    ((rows.filter (fun r => cidOf fh w pki r == c)).map
      (fun r => fh (rowBytesOf r))).foldl Nat.xor (s.xorMap c) := by
  induction rows with
  | nil => intro s c; rfl
  | cons r rs ih =>
    intro s c
    by_cases h : cidOf fh w pki r = c
    · have hb : (cidOf fh w pki r == c) = true := by simp [h]
      simp only [List.foldl_cons, List.filter_cons, hb, if_true,
        List.map_cons, ih, tg_chunk_state_insert]
      simp [h]
    · have hb : (cidOf fh w pki r == c) = false := by simp [h]
      have h' : ¬(c = cidOf fh w pki r) := fun hcc => h hcc.symm
      simp only [List.foldl_cons, List.filter_cons, hb, if_false, ih,
        tg_chunk_state_insert]
      simp [h']

theorem foldl_ins_cntMap (fh : String → Nat) (w : Int) (pki : List Nat)
    (rows : List (List (Option String))) :
    ∀ (s : TS) (c : Int),
    (rows.foldl (tg_chunk_state_insert fh w pki) s).cntMap c =
    s.cntMap c + (rows.filter (fun r => cidOf fh w pki r == c)).length := by
  induction rows with
  | nil => intro s c; simp
  | cons r rs ih =>
    intro s c
    by_cases h : cidOf fh w pki r = c
    · have hb : (cidOf fh w pki r == c) = true := by simp [h]
      simp only [List.foldl_cons, List.filter_cons, hb, if_true,
        List.length_cons, ih, tg_chunk_state_insert]
      simp [h]
      omega
    · have hb : (cidOf fh w pki r == c) = false := by simp [h]
      have h' : ¬(c = cidOf fh w pki r) := fun hcc => h hcc.symm
      simp only [List.foldl_cons, List.filter_cons, hb, if_false, ih,
        tg_chunk_state_insert]
      simp [h']

theorem foldl_ins_present (fh : String → Nat) (w : Int) (pki : List Nat)
    (rows : List (List (Option String))) :
    ∀ (s : TS),
    (rows.foldl (tg_chunk_state_insert fh w pki) s).present =
    s.present ∪ (rows.map (cidOf fh w pki)).toFinset := by
  induction rows with
  | nil => intro s; simp
  | cons r rs ih =>
    intro s
    simp only [List.foldl_cons, ih, tg_chunk_state_insert, List.map_cons,
      List.toFinset_cons]
    rw [Finset.insert_union, Finset.union_insert]

/-- Invariant tying chunk_hashes to chunk_state on the trigger path: every
    present chunk's stored digest is md5 of the decimal text of its current
    xor64, with the current row_count; absent chunks have no chunk_hashes
    row. -/
def ChOk (s : TS) : Prop :=
  ∀ c : Int,
    (c ∈ s.present →
      s.chMap c = some (md5 (utf8Bytes (decText (s.xorMap c))), s.cntMap c)) ∧
    (c ∉ s.present → s.chMap c = none)

theorem chOk_TS0 : ChOk TS0 := by
  intro c
  constructor
  · intro h
    exact absurd h (Finset.not_mem_empty c)
  · intro _
    rfl

theorem chOk_step (fh : String → Nat) (w : Int) (pki : List Nat)
    (s : TS) (r : List (Option String)) (hs : ChOk s) :
    ChOk (tg_chunk_state_insert fh w pki s r) := by
  intro c
  by_cases hc : c = cidOf fh w pki r
  · constructor
    · intro _
      simp [tg_chunk_state_insert, hc]
    · intro h
      exact absurd (by simp [tg_chunk_state_insert, hc]) h
  · constructor
    · intro h
      have hmem : c ∈ s.present := by
        rcases Finset.mem_insert.mp h with h1 | h1
        · exact absurd h1 hc
        · exact h1
      simp only [tg_chunk_state_insert, if_neg hc]
      exact (hs c).1 hmem
    · intro h
      have hmem : c ∉ s.present := fun h1 => h (Finset.mem_insert_of_mem h1)
      simp only [tg_chunk_state_insert, if_neg hc]
      exact (hs c).2 hmem

theorem chOk_foldl (fh : String → Nat) (w : Int) (pki : List Nat)
    (rows : List (List (Option String))) :
    ∀ (s : TS), ChOk s → ChOk (rows.foldl (tg_chunk_state_insert fh w pki) s) := by
  induction rows with
  | nil => intro s hs; exact hs
  | cons r rs ih =>
    intro s hs
    exact ih _ (chOk_step fh w pki s r hs)

theorem chOk_insertAll (fh : String → Nat) (w : Int) (pki : List Nat)
    (rows : List (List (Option String))) : ChOk (insertAll fh w pki rows) :=
  chOk_foldl fh w pki rows TS0 chOk_TS0

/-- Inserting the same multiset of rows in any order produces the same
    chunk_state and chunk_hashes content. -/
theorem insertAll_perm (fh : String → Nat) (w : Int) (pki : List Nat)
    {rows₁ rows₂ : List (List (Option String))} (hp : rows₁.Perm rows₂) :
    insertAll fh w pki rows₁ = insertAll fh w pki rows₂ := by
  have hx : ∀ c, (insertAll fh w pki rows₁).xorMap c =
      (insertAll fh w pki rows₂).xorMap c := by
    intro c
    unfold insertAll
    rw [foldl_ins_xorMap, foldl_ins_xorMap]
    exact xor_fold_perm ((hp.filter _).map _) _
  have hcnt : ∀ c, (insertAll fh w pki rows₁).cntMap c =
      (insertAll fh w pki rows₂).cntMap c := by
    intro c
    unfold insertAll
    rw [foldl_ins_cntMap, foldl_ins_cntMap, (hp.filter _).length_eq]
  have hpres : (insertAll fh w pki rows₁).present =
      (insertAll fh w pki rows₂).present := by
    unfold insertAll
    rw [foldl_ins_present, foldl_ins_present, toFinset_perm (hp.map _)]
  have hch : ∀ c, (insertAll fh w pki rows₁).chMap c =
      (insertAll fh w pki rows₂).chMap c := by
    intro c
    by_cases hm : c ∈ (insertAll fh w pki rows₁).present
    · rw [(chOk_insertAll fh w pki rows₁ c).1 hm,
        (chOk_insertAll fh w pki rows₂ c).1 (hpres ▸ hm), hx, hcnt]
    · rw [(chOk_insertAll fh w pki rows₁ c).2 hm,
        (chOk_insertAll fh w pki rows₂ c).2 (fun h => hm (hpres ▸ h))]
  exact TS.ext (funext hx) (funext hcnt) (funext hch) hpres

/-! ### Whole-database model for order independence -/

/-- A watched table: identity, PK column positions, chunk width, row
    population. -/
structure TSpec where
  sch : String
  tbl : String
  pki : List Nat
  w : Int
  rows : List (List (Option String))

/-- DatabaseRoot of a collection of watched tables each populated through
    the per-table trigger: hex table roots sorted by (schema, table),
    concatenated, hashed. -/
def dbRootModel (fh : String → Nat) (ts : List TSpec) : List Nat :=
  sha256 (utf8Bytes (String.join ((sortLe (fun a b => leKey a.1 b.1)
    (ts.map (fun t =>
      ((t.sch, t.tbl), hexEnc (tableRootTS (insertAll fh t.w t.pki t.rows)))))).map
    (fun p => p.2))))

/-- Same database, same per-table row multisets (possibly in different
    orders). -/
def dbRel (a b : TSpec) : Prop :=
  a.sch = b.sch ∧ a.tbl = b.tbl ∧ a.pki = b.pki ∧ a.w = b.w ∧ a.rows.Perm b.rows

theorem dbRootModel_perm (fh : String → Nat) {ts₁ ts₂ : List TSpec}
    (h : List.Forall₂ dbRel ts₁ ts₂) : dbRootModel fh ts₁ = dbRootModel fh ts₂ := by
  have hmap : ts₁.map (fun t =>
      ((t.sch, t.tbl), hexEnc (tableRootTS (insertAll fh t.w t.pki t.rows)))) =
    ts₂.map (fun t =>
      ((t.sch, t.tbl), hexEnc (tableRootTS (insertAll fh t.w t.pki t.rows)))) := by
    induction h with
    | nil => rfl
    | cons hab _ ih =>
      obtain ⟨h1, h2, h3, h4, h5⟩ := hab
      simp only [List.map_cons, ih]
      rw [h1, h2, h3, h4, insertAll_perm _ _ _ h5]
  unfold dbRootModel
  rw [hmap]

/-! ### Insertion sort facts (ORDER BY produces a sorted permutation) -/

theorem insLe_perm {α : Type} (le : α → α → Bool) (x : α) :
    ∀ l : List α, (insLe le x l).Perm (x :: l) := by
  intro l
  induction l with
  | nil => exact List.Perm.refl _
  | cons y l ih =>
    unfold insLe
    by_cases h : le x y = true
    · rw [if_pos h]
    · rw [if_neg h]
      exact (List.Perm.cons y ih).trans (List.Perm.swap x y l)

theorem sortLe_perm {α : Type} (le : α → α → Bool) :
    ∀ l : List α, (sortLe le l).Perm l := by
  intro l
  induction l with
  | nil => exact List.Perm.refl _
  | cons x l ih =>
    exact (insLe_perm le x (sortLe le l)).trans (List.Perm.cons x ih)

theorem insLe_pairwise {α : Type} (le : α → α → Bool)
    (htot : ∀ a b, le a b = true ∨ le b a = true)
    (htrans : ∀ a b c, le a b = true → le b c = true → le a c = true)
    (x : α) : ∀ l : List α, l.Pairwise (fun a b => le a b = true) →
    (insLe le x l).Pairwise (fun a b => le a b = true) := by
  intro l
  induction l with
  | nil =>
    intro _
    exact List.pairwise_singleton _ x
  | cons y l ih =>
    intro hl
    rcases List.pairwise_cons.mp hl with ⟨hy, hl'⟩
    unfold insLe
    by_cases h : le x y = true
    · rw [if_pos h]
      refine List.pairwise_cons.mpr ⟨?_, hl⟩
      intro z hz
      rcases List.mem_cons.mp hz with hz | hz
      · rw [hz]; exact h
      · exact htrans x y z h (hy z hz)
    · rw [if_neg h]
      refine List.pairwise_cons.mpr ⟨?_, ih hl'⟩
      intro z hz
      rcases List.mem_cons.mp ((insLe_perm le x l).mem_iff.mp hz) with hz | hz
      · rw [hz]
        rcases htot x y with h1 | h1
        · exact absurd h1 h
        · exact h1
      · exact hy z hz

theorem sortLe_pairwise {α : Type} (le : α → α → Bool)
    (htot : ∀ a b, le a b = true ∨ le b a = true)
    (htrans : ∀ a b c, le a b = true → le b c = true → le a c = true) :
    ∀ l : List α, (sortLe le l).Pairwise (fun a b => le a b = true) := by
  intro l
  induction l with
  | nil => exact List.Pairwise.nil
  | cons x l ih => exact insLe_pairwise le htot htrans x (sortLe le l) ih

/-! ### rehash_dirty facts -/

theorem upsert_chunk_hash_rows (st : DBState) (sch tbl : String) (cid : Int) :
    (upsert_chunk_hash st sch tbl cid).rows = st.rows := rfl

theorem mem_upsert_chunks {st : DBState} {sch tbl : String} {cid : Int}
    {e : ChunkE} (he : e ∈ (upsert_chunk_hash st sch tbl cid).chunks) :
    e.dirty = false ∨ (e ∈ st.chunks ∧ ckeyMatch e sch tbl cid = false) := by
  by_cases hany : st.chunks.any (fun x => ckeyMatch x sch tbl cid) = true
  · simp only [upsert_chunk_hash, hany, if_true] at he
    rcases List.mem_map.mp he with ⟨x, hx, hfx⟩
    by_cases hm : ckeyMatch x sch tbl cid = true
    · rw [if_pos hm] at hfx
      left
      rw [← hfx]
    · rw [if_neg hm] at hfx
      right
      rw [← hfx]
      exact ⟨hx, by revert hm; cases ckeyMatch x sch tbl cid <;> simp⟩
  · have hany' : st.chunks.any (fun x => ckeyMatch x sch tbl cid) = false := by
      revert hany; cases st.chunks.any (fun x => ckeyMatch x sch tbl cid) <;> simp
    simp only [upsert_chunk_hash, hany', Bool.false_eq_true, if_false] at he
    rcases List.mem_append.mp he with h | h
    · right
      refine ⟨h, ?_⟩
      have hall := List.any_eq_false.mp hany'
      have := hall e h
      revert this; cases ckeyMatch e sch tbl cid <;> simp
    · left
      rcases List.mem_singleton.mp h with rfl
      rfl

theorem foldl_upsert_mem (ks : List ChunkE) :
    ∀ (st : DBState) (e : ChunkE),
    e ∈ ((ks.foldl (fun s k => upsert_chunk_hash s k.sch k.tbl k.cid) st).chunks) →
    e.dirty = false ∨
      (e ∈ st.chunks ∧ ∀ k ∈ ks, ckeyMatch e k.sch k.tbl k.cid = false) := by
  induction ks with
  | nil =>
    intro st e he
    right
    exact ⟨he, by intro k hk; exact absurd hk (List.not_mem_nil k)⟩
  | cons k ks ih =>
    intro st e he
    rcases ih (upsert_chunk_hash st k.sch k.tbl k.cid) e he with h | ⟨hmem, hall⟩
    · exact Or.inl h
    · rcases mem_upsert_chunks hmem with h | ⟨hmem', hk⟩
      · exact Or.inl h
      · right
        refine ⟨hmem', ?_⟩
        intro k' hk'
        rcases List.mem_cons.mp hk' with rfl | hk'
        · exact hk
        · exact hall k' hk'

theorem foldl_upsert_rows (ks : List ChunkE) :
    ∀ st : DBState,
    (ks.foldl (fun s k => upsert_chunk_hash s k.sch k.tbl k.cid) st).rows =
      st.rows := by
  induction ks with
  | nil => intro st; rfl
  | cons k ks ih =>
    intro st
    rw [List.foldl_cons, ih, upsert_chunk_hash_rows]

theorem rehash_dirty_clean (st : DBState) :
    ∀ e ∈ (rehash_dirty st).chunks, e.dirty = false := by
  intro e he
  unfold rehash_dirty at he
  rcases foldl_upsert_mem _ st e he with h | ⟨hmem, hall⟩
  · exact h
  · by_contra hd
    have hd' : e.dirty = true := by
      revert hd; cases e.dirty <;> simp
    have hef : e ∈ st.chunks.filter (fun x => x.dirty) :=
      List.mem_filter.mpr ⟨hmem, hd'⟩
    have := hall e hef
    have hself : ckeyMatch e e.sch e.tbl e.cid = true := by
      simp [ckeyMatch]
    rw [this] at hself
    exact Bool.false_ne_true hself

theorem rehash_dirty_idem (st : DBState) :
    rehash_dirty (rehash_dirty st) = rehash_dirty st := by
  have hfil : (rehash_dirty st).chunks.filter (fun e => e.dirty) = [] := by
    apply List.filter_eq_nil_iff.mpr
    intro e he
    simp [rehash_dirty_clean st e he]
  show ((rehash_dirty st).chunks.filter (fun e => e.dirty)).foldl
    (fun s e => upsert_chunk_hash s e.sch e.tbl e.cid) (rehash_dirty st) =
    rehash_dirty st
  rw [hfil]
  rfl

/-! ### Aggregator, spec-side forms -/

/-- TableRoot as §4.8 words it: hex chunk digests in chunk_id order,
    concatenated and hashed (the empty concatenation hashes the empty
    string). -/
def tableRootSpec (chunks : List ChunkE) (sch tbl : String) : List Nat :=
  sha256 (utf8Bytes (String.join
    ((sortLe leCid (chunks.filter (fun e => e.sch == sch && e.tbl == tbl))).map
      (fun e => hexEnc e.hash))))

/-- DatabaseRoot as §4.8 words it: hex TableRoots of the (schema,table)
    pairs present in ChunkHash, in (schema,table) order, concatenated and
    hashed. -/
def databaseRootSpec (chunks : List ChunkE) : List Nat :=
  sha256 (utf8Bytes (String.join
    ((sortLe leKey ((chunks.map (fun e => (e.sch, e.tbl))).dedup)).map
      (fun k => hexEnc (table_root_hash chunks k.1 k.2)))))

theorem table_root_hash_eq_spec (chunks : List ChunkE) (sch tbl : String) :
    table_root_hash chunks sch tbl = tableRootSpec chunks sch tbl := by
  unfold table_root_hash tableRootSpec
  by_cases h :
    sortLe leCid (chunks.filter (fun e => e.sch == sch && e.tbl == tbl)) = []
  · rw [if_pos h, h]
    rfl
  · rw [if_neg h]

theorem database_root_hash_eq_spec (chunks : List ChunkE) :
    database_root_hash chunks = databaseRootSpec chunks := by
  unfold database_root_hash databaseRootSpec
  by_cases h : sortLe leKey ((chunks.map (fun e => (e.sch, e.tbl))).dedup) = []
  · rw [if_pos h, h]
    rfl
  · rw [if_neg h]

/-- There is always an entry with the upserted key and payload after a
    row_hashes upsert. -/
theorem rhUpsert_exists (l : List RowE) (e0 : RowE) :
    ∃ e ∈ rhUpsert l e0,
      e.pkh = e0.pkh ∧ e.cid = e0.cid ∧ e.rowh = e0.rowh := by
  unfold rhUpsert
  by_cases hany : l.any (fun x => rkeyMatch x e0.sch e0.tbl e0.pkh) = true
  · rw [if_pos hany]
    rcases List.any_eq_true.mp hany with ⟨x, hx, hmx⟩
    refine ⟨if rkeyMatch x e0.sch e0.tbl e0.pkh then
      { x with cid := e0.cid, rowh := e0.rowh } else x,
      List.mem_map.mpr ⟨x, hx, rfl⟩, ?_⟩
    rw [if_pos hmx]
    have hpk : x.pkh = e0.pkh := by
      simp [rkeyMatch] at hmx
      exact hmx.2
    exact ⟨hpk, rfl, rfl⟩
  · rw [if_neg hany]
    exact ⟨e0, List.mem_append_right l (List.mem_singleton.mpr rfl),
      rfl, rfl, rfl⟩

/-- Mapping a function that fixes every element is the identity. -/
theorem map_eq_self {α : Type} {f : α → α} :
    ∀ {l : List α}, (∀ a ∈ l, f a = a) → l.map f = l := by
  intro l
  induction l with
  | nil => intro _; rfl
  | cons x l ih =>
    intro h
    rw [List.map_cons, h x (List.mem_cons_self x l),
      ih (fun a ha => h a (List.mem_cons_of_mem x ha))]

/-! ### Relating the two primary-key serializations

compute_chunk_id builds its key by appending the separator AFTER every
column, while join_cols (pkBytesOf) puts the separator only BETWEEN
columns.  For a non-empty column list the first is exactly the second with
one trailing separator appended. -/

theorem foldl_append_acc :
    ∀ (l : List String) (acc : String),
    l.foldl (fun r s => r ++ s) acc = acc ++ l.foldl (fun r s => r ++ s) "" := by
  intro l
  induction l with
  | nil =>
    intro acc
    rw [List.foldl_nil, List.foldl_nil, String.append_empty]
  | cons x l ih =>
    intro acc
    rw [List.foldl_cons, List.foldl_cons, ih (acc ++ x), ih ("" ++ x),
      String.empty_append, String.append_assoc]

theorem join_cons (a : String) (l : List String) :
    String.join (a :: l) = a ++ String.join l := by
  show (a :: l).foldl (fun r s => r ++ s) "" = a ++ l.foldl (fun r s => r ++ s) ""
  rw [List.foldl_cons, String.empty_append, foldl_append_acc]

theorem intercalate_go_join (sep : String) :
    ∀ (l : List String) (acc : String),
    String.intercalate.go acc sep l =
      acc ++ String.join (l.map (fun x => sep ++ x)) := by
  intro l
  induction l with
  | nil =>
    intro acc
    show acc = acc ++ ""
    rw [String.append_empty]
  | cons b l ih =>
    intro acc
    show String.intercalate.go (acc ++ sep ++ b) sep l = _
    simp only [ih, List.map_cons, join_cons, String.append_assoc]

theorem join_sep_swap (sep : String) :
    ∀ l : List String,
    sep ++ String.join (l.map (fun x => x ++ sep)) =
      String.join (l.map (fun x => sep ++ x)) ++ sep := by
  intro l
  induction l with
  | nil =>
    show sep ++ "" = "" ++ sep
    rw [String.append_empty, String.empty_append]
  | cons x l ih =>
    simp only [List.map_cons, join_cons, String.append_assoc]
    rw [ih]

/-- The trailing-separator key of compute_chunk_id equals the
    between-separator serialization with one separator appended. -/
theorem join_trailing (sep : String) :
    ∀ l : List String, l ≠ [] →
    String.join (l.map (fun x => x ++ sep)) = String.intercalate sep l ++ sep := by
  intro l
  cases l with
  | nil => intro h; exact absurd rfl h
  | cons a l =>
    intro _
    rw [List.map_cons, join_cons,
      show String.intercalate sep (a :: l) = String.intercalate.go a sep l from rfl,
      intercalate_go_join]
    simp only [String.append_assoc]
    rw [join_sep_swap]

/-! ## Claims -/

/-- C1.  Order independence: inserting the same multiset of rows in any
    order yields the same TableRoot (per-table trigger path); two databases
    populated with the same rows in any two orders have identical
    DatabaseRoot; and the chunk combiners — the 64-bit XOR fold xor_agg and
    the 2^128 modular-sum multiset_hash — are invariant under every
    permutation of their input row sequence. -/
theorem claim_C1_order_independence :
    (∀ (fh : String → Nat) (w : Int) (pki : List Nat)
      (rows₁ rows₂ : List (List (Option String))), rows₁.Perm rows₂ →
      tableRootTS (insertAll fh w pki rows₁) =
        tableRootTS (insertAll fh w pki rows₂))
  ∧ (∀ (fh : String → Nat) (ts₁ ts₂ : List TSpec),
      List.Forall₂ dbRel ts₁ ts₂ → dbRootModel fh ts₁ = dbRootModel fh ts₂)
  ∧ (∀ (l₁ l₂ : List Int), l₁.Perm l₂ → xor_agg l₁ = xor_agg l₂)
  ∧ (∀ (α : Type) (h : α → Nat) (l₁ l₂ : List α), l₁.Perm l₂ →
      multiset_hash h l₁ = multiset_hash h l₂) :=
  ⟨fun fh w pki _ _ hp => by rw [insertAll_perm fh w pki hp],
   fun fh _ _ h => dbRootModel_perm fh h,
   fun _ _ hp => xor_agg_perm hp,
   fun _ h _ _ hp => multiset_hash_perm h hp⟩

theorem claim_C1_witness :
    tableRootTS (insertAll (fun s => s.length) 5 [0] [[some "a"], [some "b"]]) =
      tableRootTS (insertAll (fun s => s.length) 5 [0] [[some "b"], [some "a"]])
  ∧ dbRootModel (fun s => s.length)
      [⟨"public", "t", [0], 5, [[some "a"], [some "b"]]⟩] =
    dbRootModel (fun s => s.length)
      [⟨"public", "t", [0], 5, [[some "b"], [some "a"]]⟩]
  ∧ xor_agg [1, 2, 3] = xor_agg [3, 1, 2]
  ∧ multiset_hash (fun n : Nat => n) [4, 5] = multiset_hash (fun n : Nat => n) [5, 4] :=
  ⟨claim_C1_order_independence.1 _ _ _ _ _ (by decide),
   claim_C1_order_independence.2.1 _ _ _
     (List.Forall₂.cons ⟨rfl, rfl, rfl, rfl, by decide⟩ List.Forall₂.nil),
   claim_C1_order_independence.2.2.1 _ _ (by decide),
   claim_C1_order_independence.2.2.2 Nat _ _ _ (by decide)⟩

/-- C2.  DatabaseRoot equals SHA-256 of the concatenation of the
    hex-encoded TableRoots of every (schema, table) present in ChunkHash,
    ordered by (schema, table) ascending; with no ChunkHash entries at all
    it equals SHA-256 of the empty string, whose hex digest is
    e3b0c44298fc1c149afbf4c8996fb92427ae41e4649b934ca495991b7852b855. -/
theorem claim_C2_database_root :
    (∀ chunks : List ChunkE, database_root_hash chunks = databaseRootSpec chunks)
  ∧ database_root_hash [] = sha256 []
  ∧ hexEnc (database_root_hash []) =
      "e3b0c44298fc1c149afbf4c8996fb92427ae41e4649b934ca495991b7852b855" :=
  ⟨database_root_hash_eq_spec, rfl, by decide⟩

/-- C3.  TableRoot equals SHA-256 of the concatenation of the hex-encoded
    chunk_hash values of the table's ChunkHash rows ordered by chunk_id
    ascending (the order used is a sorted permutation of those rows), and a
    table with no ChunkHash rows has TableRoot = SHA-256 of the empty
    string. -/
theorem claim_C3_table_root :
    (∀ (chunks : List ChunkE) (sch tbl : String),
      table_root_hash chunks sch tbl = tableRootSpec chunks sch tbl)
  ∧ (∀ (chunks : List ChunkE) (sch tbl : String),
      (sortLe leCid (chunks.filter (fun e => e.sch == sch && e.tbl == tbl))).Pairwise
        (fun a b => a.cid ≤ b.cid)
      ∧ (sortLe leCid (chunks.filter (fun e => e.sch == sch && e.tbl == tbl))).Perm
          (chunks.filter (fun e => e.sch == sch && e.tbl == tbl)))
  ∧ (∀ sch tbl : String, table_root_hash [] sch tbl = sha256 []) := by
  refine ⟨table_root_hash_eq_spec, fun chunks sch tbl => ⟨?_, sortLe_perm _ _⟩,
    fun sch tbl => rfl⟩
  have h := sortLe_pairwise leCid
    (fun a b => by
      unfold leCid
      rcases le_total a.cid b.cid with h | h
      · left; exact decide_eq_true h
      · right; exact decide_eq_true h)
    (fun a b c hab hbc => by
      unfold leCid at hab hbc ⊢
      exact decide_eq_true (le_trans (of_decide_eq_true hab) (of_decide_eq_true hbc)))
    (chunks.filter (fun e => e.sch == sch && e.tbl == tbl))
  exact h.imp (fun hab => of_decide_eq_true hab)

/-- C4 counterexample.  The claim says the stored chunk digest is SHA-256
    of the decimal text of the chunk's xor64; in the code it is MD5
    (decode(md5(xor64::text),'hex')).  Concretely: insert one row (pk text
    "1") with chunk_width 1 under the fast-hash model that returns pattern
    0; the chunk 0 digest stored in chunk_hashes is md5("0"), not
    sha256("0"). -/
theorem claim_C4_counterexample :
    (insertAll (fun _ => 0) 1 [0] [[some "1"]]).chMap 0 ≠
      some (sha256 (utf8Bytes (decText
        ((insertAll (fun _ => 0) 1 [0] [[some "1"]]).xorMap 0))), 1) := by
  decide

/-- C4 as amended.  Under the XOR derivation the stored chunk digest equals
    MD5 (not SHA-256) of the decimal text rendering of the chunk's xor64
    state: after any sequence of trigger inserts every present chunk's
    chunk_hashes digest is md5(decimal_text(xor64)) with the current
    row_count, and the bootstrap fill writes md5(decimal_text(xor64)) for
    every populated chunk. -/
theorem claim_C4_amended :
    (∀ (fh : String → Nat) (w : Int) (pki : List Nat)
      (rows : List (List (Option String))) (c : Int),
      c ∈ (insertAll fh w pki rows).present →
      (insertAll fh w pki rows).chMap c =
        some (md5 (utf8Bytes (decText ((insertAll fh w pki rows).xorMap c))),
          (insertAll fh w pki rows).cntMap c))
  ∧ (∀ (fh : String → Nat) (w : Int) (pki : List Nat)
      (rows : List (List (Option String))) (c : Int),
      (rows.map (cidOf fh w pki)).contains c = true →
      bootChunkHash fh w pki rows c =
        some (md5 (utf8Bytes (decText (bootXor fh w pki rows c))),
          bootCnt fh w pki rows c)) :=
  ⟨fun fh w pki rows c hc => (chOk_insertAll fh w pki rows c).1 hc,
   fun fh w pki rows c hc => by unfold bootChunkHash; rw [if_pos hc]⟩

theorem claim_C4_witness :
    (0 : Int) ∈ (insertAll (fun _ => 0) 1 [0] [[some "1"]]).present
  ∧ (([[some "1"]] : List (List (Option String))).map
      (cidOf (fun _ => 0) 1 [0])).contains 0 = true
  ∧ (insertAll (fun _ => 0) 1 [0] [[some "1"]]).chMap 0 =
      some (md5 (utf8Bytes (decText
        ((insertAll (fun _ => 0) 1 [0] [[some "1"]]).xorMap 0))),
        (insertAll (fun _ => 0) 1 [0] [[some "1"]]).cntMap 0)
  ∧ bootChunkHash (fun _ => 0) 1 [0] [[some "1"]] 0 =
      some (md5 (utf8Bytes (decText (bootXor (fun _ => 0) 1 [0] [[some "1"]] 0))),
        bootCnt (fun _ => 0) 1 [0] [[some "1"]] 0) :=
  ⟨by decide, by decide,
   claim_C4_amended.1 _ _ _ _ _ (by decide),
   claim_C4_amended.2 _ _ _ _ _ (by decide)⟩

/-- C5 counterexample.  The claim asserts chunk_id =
    |fasthash64(pk_bytes)| / max(chunk_width,1) on both cited paths, with
    pk_bytes the §4.1 serialization (separator only between columns).  The
    shared vkarious.compute_chunk_id appends a separator after EVERY
    column, so for the single-column PK ("1") with chunk_width 1, under the
    fast-hash model String.length, it returns 2 while
    |fasthash64(pk_bytes)| / max(1,1) = 1 — and it also disagrees with the
    generated-trigger path's chunk id for the same row. -/
theorem claim_C5_counterexample :
    compute_chunk_id (fun s => s.length) (some [some "1"]) 1 ≠
      ((absPat (pkBytesOf [0] [some "1"]).length : Int)) / max 1 1
  ∧ compute_chunk_id (fun s => s.length) (some [some "1"]) 1 ≠
      cidOf (fun s => s.length) 1 [0] [some "1"] := by
  constructor
  · decide
  · decide

/-- C5 as amended.  chunk_id equals |fasthash64(k)| integer-divided by
    max(chunk_width, 1), where k is the path's own primary-key
    serialization: the shared compute_chunk_id hashes the trailing-separator
    key — for a non-empty PK exactly pk_bytes with one ␟ appended, hence a
    different string than pk_bytes — while the generated per-table path
    hashes pk_bytes itself (␟ only between columns); each path's assignment
    is deterministic and depends only on the primary-key column contents
    and the chunk width. -/
theorem claim_C5_chunk_assignment :
    (∀ (fh : String → Nat) (ts : List (Option String)) (w : Int),
      compute_chunk_id fh (some ts) w =
        ((absPat (fh (String.join (ts.map (fun o => colText o ++ "␟")))) : Int)) /
          max w 1)
  ∧ (∀ (fh : String → Nat) (ts : List (Option String)) (w : Int), ts ≠ [] →
      compute_chunk_id fh (some ts) w =
        ((absPat (fh (String.intercalate "␟" (ts.map colText) ++ "␟")) : Int)) /
          max w 1)
  ∧ (∀ (fh : String → Nat) (w : Int) (pki : List Nat) (r : List (Option String)),
      cidOf fh w pki r = ((absPat (fh (pkBytesOf pki r)) : Int)) / max w 1)
  ∧ (∀ (fh : String → Nat) (w : Int) (pki pki' : List Nat)
      (r r' : List (Option String)),
      pki.map (fun i => r.getD i none) = pki'.map (fun i => r'.getD i none) →
      cidOf fh w pki r = cidOf fh w pki' r') := by
  refine ⟨fun fh ts w => rfl, ?_, fun fh w pki r => rfl, ?_⟩
  · intro fh ts w hne
    have hmap : ts.map (fun o => colText o ++ "␟") =
        (ts.map colText).map (fun x => x ++ "␟") := by
      rw [List.map_map]
      rfl
    have hnil : ts.map colText ≠ [] := by
      intro h
      exact hne (List.map_eq_nil_iff.mp h)
    show ((absPat (fh (String.join (ts.map (fun o => colText o ++ "␟")))) : Int)) /
        max w 1 = _
    rw [hmap, join_trailing "␟" (ts.map colText) hnil]
  · intro fh w pki pki' r r' h
    have e1 : pki.map (fun i => colText (r.getD i none)) =
        (pki.map (fun i => r.getD i none)).map colText := by
      rw [List.map_map]
      rfl
    have e2 : pki'.map (fun i => colText (r'.getD i none)) =
        (pki'.map (fun i => r'.getD i none)).map colText := by
      rw [List.map_map]
      rfl
    unfold cidOf pkBytesOf
    rw [e1, e2, h]

theorem claim_C5_witness :
    ([some "1"] : List (Option String)) ≠ []
  ∧ compute_chunk_id (fun s => s.length) (some [some "1"]) 7 =
      ((absPat (String.intercalate "␟"
        (([some "1"] : List (Option String)).map colText) ++ "␟").length : Int)) /
        max 7 1
  ∧ ([0].map (fun i => ([some "x"] : List (Option String)).getD i none) =
      [1].map (fun i => ([none, some "x"] : List (Option String)).getD i none))
  ∧ cidOf (fun s => s.length) 7 [0] [some "x"] =
      cidOf (fun s => s.length) 7 [1] [none, some "x"] :=
  ⟨by decide,
   claim_C5_chunk_assignment.2.1 (fun s => s.length) [some "1"] 7 (by decide),
   by decide,
   claim_C5_chunk_assignment.2.2.2 _ _ _ _ _ _ (by decide)⟩

/-- C6 counterexample.  The claim says the bootstrap ChunkState xor64 for
    table t(id int primary key, v text) with row (1,'a') equals
    fasthash64 of the serialization with a trailing separator after each
    column.  The bootstrap aggregation hashes join_cols output, which puts
    the separator only BETWEEN columns; under the fast-hash model
    String.length the two serializations hash differently (3 vs 4), so the
    claimed identity fails. -/
theorem claim_C6_counterexample :
    bootXor (fun s => s.length) 200000 [0] [[some "1", some "a"]]
      (cidOf (fun s => s.length) 200000 [0] [some "1", some "a"]) ≠
    (fun s : String => s.length) "1␟a␟" := by
  decide

/-- C6 as amended.  After bootstrap with chunk_width 200000, the ChunkState
    of the chunk containing the single row (1,'a') has
    xor64 = fasthash64 of the join_cols serialization "1␟a" (the canonical
    column texts joined by the unit separator, with no trailing separator)
    and row_count = 1, for every model fh of the fast hash. -/
theorem claim_C6_amended :
    ∀ fh : String → Nat,
      bootXor fh 200000 [0] [[some "1", some "a"]]
        (cidOf fh 200000 [0] [some "1", some "a"]) = fh "1␟a"
      ∧ bootCnt fh 200000 [0] [[some "1", some "a"]]
          (cidOf fh 200000 [0] [some "1", some "a"]) = 1 := by
  intro fh
  constructor
  · unfold bootXor
    simp only [List.filter_cons, List.filter_nil, beq_self_eq_true, if_true,
      List.map_cons, List.map_nil, List.foldl_cons, List.foldl_nil]
    rw [show ∀ n : Nat, Nat.xor 0 n = n from fun n => Nat.zero_xor n]
    exact congrArg fh (by decide)
  · unfold bootCnt
    simp [List.filter_cons]

/-- C7 counterexample.  The claim says pk_hash is the digest of the
    ␟-separated pk_bytes and that distinct PK tuples have distinct
    pk_bytes.  The trigger concatenates the PK column texts with the EMPTY
    separator (string_agg(...,'')), so for the tuple ('a','b') the code's
    pk_hash differs from sha256("a␟b"); and the distinct tuples
    ('ab','c') and ('a','bc') collide on the code's pk_bytes. -/
theorem claim_C7_counterexample :
    pkHashOf [some "a", some "b"] ≠ sha256 (utf8Bytes "a␟b")
  ∧ pkHashOf [some "ab", some "c"] = pkHashOf [some "a", some "bc"] := by
  constructor
  · decide
  · decide

/-- C7 as amended.  pk_hash equals SHA-256 of the concatenation of the
    primary-key columns' canonical texts in declared order with the NULL
    sentinel substituted and NO separator between columns: every INSERT
    through tg_row_hash records a row_hashes entry keyed by exactly that
    digest (with the computed chunk_id and row digest); consequently
    pk_bytes is not injective on PK tuples — ('ab','c') and ('a','bc')
    share it. -/
theorem claim_C7_amended :
    (∀ (st : DBState) (sch tbl : String) (ts : List (Option String))
      (cid : Int) (rowh : List Nat),
      ∃ e ∈ (tg_row_hash_insert st sch tbl ts cid rowh).rows,
        e.pkh = sha256 (utf8Bytes (String.join (ts.map colText)))
        ∧ e.cid = cid ∧ e.rowh = rowh)
  ∧ pkHashOf [some "ab", some "c"] = pkHashOf [some "a", some "bc"] := by
  constructor
  · intro st sch tbl ts cid rowh
    exact rhUpsert_exists st.rows ⟨sch, tbl, pkHashOf ts, cid, rowh⟩
  · decide

/-- C8.  Rehash is idempotent: running rehash_dirty twice with no
    intervening DML yields the same state (hence the same chunk digests) as
    running it once, leaves every chunk_hashes row with dirty=false, and
    never touches row_hashes. -/
theorem claim_C8_rehash_idempotent :
    (∀ st : DBState, rehash_dirty (rehash_dirty st) = rehash_dirty st)
  ∧ (∀ st : DBState, ∀ e ∈ (rehash_dirty st).chunks, e.dirty = false)
  ∧ (∀ st : DBState, (rehash_dirty st).rows = st.rows) :=
  ⟨rehash_dirty_idem, rehash_dirty_clean, fun st => foldl_upsert_rows _ st⟩

theorem claim_C8_witness :
    (⟨"s", "t", 0, sha256 [], 0, false⟩ : ChunkE) ∈
      (rehash_dirty ⟨[], [⟨"s", "t", 0, [], 0, true⟩]⟩).chunks
  ∧ (⟨"s", "t", 0, sha256 [], 0, false⟩ : ChunkE).dirty = false :=
  ⟨by decide,
   claim_C8_rehash_idempotent.2.1 ⟨[], [⟨"s", "t", 0, [], 0, true⟩]⟩
     ⟨"s", "t", 0, sha256 [], 0, false⟩ (by decide)⟩

/-- C9 counterexample.  The claim says the trigger on the user table is
    installed strictly after the initial chunk aggregation.  In bootstrap's
    per-table step sequence a trigger (running the generated per-table
    function) is created at index 3, BEFORE the aggregation at index 5, so
    the claimed ordering is violated. -/
theorem claim_C9_counterexample :
    ¬ (∀ i : Nat, ∀ hi : i < bootstrap_steps.length,
        isTrigInstall bootstrap_steps[i] = true →
        ∀ j : Nat, ∀ hj : j < bootstrap_steps.length,
        isAgg bootstrap_steps[j] = true → j < i) := by
  decide

/-- C9 as amended.  Within the single per-table bootstrap transaction there
    are exactly two trigger installations and one aggregation: a trigger
    running the generated per-table function is installed at step 3,
    before the aggregation at step 5, and the final installation of the
    shared tg_row_hash trigger happens at step 9, after the aggregation. -/
theorem claim_C9_amended :
    bootstrap_steps[3]? = some (BStep.createTrig TrigFn.perTable)
  ∧ bootstrap_steps[5]? = some BStep.aggChunkState
  ∧ bootstrap_steps[9]? = some (BStep.createTrig TrigFn.shared)
  ∧ (bootstrap_steps.filter isTrigInstall).length = 2
  ∧ (bootstrap_steps.filter isAgg).length = 1
  ∧ 3 < 5 ∧ 5 < 9 := by
  decide

/-- C10.  An INSERT through tg_row_hash whose computed chunk_id has no
    existing chunk_hashes row leaves chunk_hashes completely unchanged
    (the dirty UPDATE matches zero rows and nothing is inserted there), so
    table_root_hash is unchanged too; the inserted row is recorded only in
    row_hashes. -/
theorem claim_C10_insert_frame :
    ∀ (st : DBState) (sch tbl : String) (ts : List (Option String))
      (cid : Int) (rowh : List Nat),
      (∀ e ∈ st.chunks, ckeyMatch e sch tbl cid = false) →
      (tg_row_hash_insert st sch tbl ts cid rowh).chunks = st.chunks
      ∧ table_root_hash (tg_row_hash_insert st sch tbl ts cid rowh).chunks sch tbl =
          table_root_hash st.chunks sch tbl
      ∧ ∃ e ∈ (tg_row_hash_insert st sch tbl ts cid rowh).rows,
          e.pkh = pkHashOf ts ∧ e.cid = cid ∧ e.rowh = rowh := by
  intro st sch tbl ts cid rowh hno
  have hc : (tg_row_hash_insert st sch tbl ts cid rowh).chunks = st.chunks := by
    show st.chunks.map (fun e =>
      if ckeyMatch e sch tbl cid then { e with dirty := true } else e) = st.chunks
    apply map_eq_self
    intro e he
    rw [hno e he]
    simp
  exact ⟨hc, by rw [hc],
    rhUpsert_exists st.rows ⟨sch, tbl, pkHashOf ts, cid, rowh⟩⟩

theorem claim_C10_witness :
    (∀ e ∈ (⟨[], []⟩ : DBState).chunks, ckeyMatch e "s" "t" 0 = false)
  ∧ ((tg_row_hash_insert ⟨[], []⟩ "s" "t" [some "1"] 0 [7]).chunks =
      (⟨[], []⟩ : DBState).chunks
    ∧ table_root_hash (tg_row_hash_insert ⟨[], []⟩ "s" "t" [some "1"] 0 [7]).chunks
        "s" "t" = table_root_hash (⟨[], []⟩ : DBState).chunks "s" "t"
    ∧ ∃ e ∈ (tg_row_hash_insert ⟨[], []⟩ "s" "t" [some "1"] 0 [7]).rows,
        e.pkh = pkHashOf [some "1"] ∧ e.cid = 0 ∧ e.rowh = [7]) :=
  ⟨by decide, claim_C10_insert_frame ⟨[], []⟩ "s" "t" [some "1"] 0 [7] (by decide)⟩

end vkarious
